import Mathlib

/-!
Verification of the seastore LBA B+tree
(`src/crimson/os/seastore/lba_manager/btree/lba_btree.cc`).

The development has two layers.

* `LBA` — shared data model: logical addresses, physical addresses
  (`paddr_t`, possibly relative, with `maybe_relative_to`), mapping values
  (`lba_map_val_t`) and node metadata (`lba_node_meta_t`).

* `LBATreeModel` — an algebraic (recursive) model of the tree used for the
  functional-correctness claims about `lower_bound`, `insert` and the
  logical branch of `init_cached_extent`.  The descent logic (choosers) is
  taken from `lba_btree.cc`; the parts that live in the header
  (`lookup`, the node layout primitives) are modelled from the spec and
  marked as such.

* `LBABtree` — a positional model (iterator = root-to-leaf path of
  `node_position_t`, nodes fetched from a store, root handle with dirty
  flag) used for the structural claims about `split_level`, `merge_level`,
  `handle_split`, `handle_merge`, `update_internal_mapping`, `remove` and
  `iterator::next`, each transliterated from `lba_btree.cc`.
-/

namespace LBA

/-- Logical address sentinel `L_ADDR_MIN` (zero). -/
def L_ADDR_MIN : Nat := 0

/-- Logical address sentinel `L_ADDR_MAX` (`laddr_t` is a 64-bit unsigned
integer; `L_ADDR_MAX` is its maximal value, used as exclusive right
bound). -/
def L_ADDR_MAX : Nat := 2 ^ 64 - 1

/-- Physical block address.  Internal node entries may store a physical
address either absolutely or relative to a base (block- or
record-relative); the decoder `maybe_relative_to` must be applied before
use.  We model both relative encodings by a single offset constructor. -/
inductive paddr_t where
  | abs (n : Nat)
  | rel (off : Nat)
  deriving DecidableEq, Repr

instance : Inhabited paddr_t := ⟨.abs 0⟩

/-- `paddr_t::maybe_relative_to(base)`: a relative address is resolved
against the base; an absolute address is returned unchanged.  (`p` is the
possibly-relative address, `base` the parent's address, so that
`p.maybe_relative_to base` reads as the C++ call.) -/
def paddr_t.maybe_relative_to (p base : paddr_t) : paddr_t :=
  match p with
  | .abs n => .abs n
  | .rel off =>
    match base with
    | .abs b => .abs (b + off)
    | .rel b => .rel (b + off)

/-- `lba_map_val_t`: the value mapped by a leaf entry — physical address,
length, reference count and checksum. -/
structure lba_map_val_t where
  paddr : paddr_t
  len : Nat
  refcount : Nat
  checksum : Nat
  deriving DecidableEq, Repr

instance : Inhabited lba_map_val_t := ⟨⟨default, 0, 0, 0⟩⟩

/-- `lba_node_meta_t`: key range `[begin_, end_)` owned by the subtree
rooted at a node, plus the node's depth (leaves are depth 1). -/
structure lba_node_meta_t where
  begin_ : Nat
  end_ : Nat
  depth : Nat
  deriving DecidableEq, Repr

instance : Inhabited lba_node_meta_t := ⟨⟨0, 0, 0⟩⟩

end LBA

namespace LBATreeModel

open LBA

/-- Algebraic model of the LBA B+tree.  A leaf holds the ordered
`(laddr, lba_map_val_t)` entries; an internal node holds the ordered
`(pivot, child)` entries.  In the implementation children are referenced
by physical address through the cache; the algebraic model inlines the
child subtree, which is exactly what the cache descent resolves to. -/
inductive LBATree where
  | leaf (meta : lba_node_meta_t) (entries : List (Nat × lba_map_val_t))
  | internal (meta : lba_node_meta_t) (children : List (Nat × LBATree))

namespace LBATree

/-- The `begin` bound of a node's metadata. -/
def begin_ : LBATree → Nat
  | .leaf m _ => m.begin_
  | .internal m _ => m.begin_

/-- The `end` bound of a node's metadata. -/
def end_ : LBATree → Nat
  | .leaf m _ => m.end_
  | .internal m _ => m.end_

/-- The node's depth field. -/
def depth : LBATree → Nat
  | .leaf m _ => m.depth
  | .internal m _ => m.depth

/-- Whether a node has at least one entry. -/
def nonempty : LBATree → Bool
  | .leaf _ es => !es.isEmpty
  | .internal _ cs => !cs.isEmpty

end LBATree

mutual
/-- All leaf entries of the tree, in key order (in-order traversal). -/
def treeEntries : LBATree → List (Nat × lba_map_val_t)
  | .leaf _ es => es
  | .internal _ cs => chainEntries cs
termination_by t => sizeOf t

/-- Leaf entries of a list of children, in order. -/
def chainEntries : List (Nat × LBATree) → List (Nat × lba_map_val_t)
  | [] => []
  | (_, c) :: rest => treeEntries c ++ chainEntries rest
termination_by cs => sizeOf cs
end

mutual
/-- First leaf entry of a tree, if any. -/
def firstEntryTree : LBATree → Option (Nat × lba_map_val_t)
  | .leaf _ es => es.head?
  | .internal _ cs => firstEntryChain cs
termination_by t => sizeOf t

/-- First leaf entry of a list of children, if any. -/
def firstEntryChain : List (Nat × LBATree) → Option (Nat × lba_map_val_t)
  | [] => none
  | (_, c) :: rest =>
    match firstEntryTree c with
    | some e => some e
    | none => firstEntryChain rest
termination_by cs => sizeOf cs
end

/-- Strictly increasing keys (the leaf-order invariant: keys are strictly
increasing, no duplicates). -/
def sortedKeys {α : Type} : List (Nat × α) → Bool
  | [] => true
  | [_] => true
  | a :: b :: rest => decide (a.1 < b.1) && sortedKeys (b :: rest)

/-- All keys within `[lo, hi)`. -/
def keysWithin {α : Type} (lo hi : Nat) (es : List (Nat × α)) : Bool :=
  es.all fun e => decide (lo ≤ e.1) && decide (e.1 < hi)

mutual
/-- Well-formedness of a node, following §3 of the design: metadata ranges
are nonempty and nest, internal entry `i`'s pivot equals child `i`'s
`begin`, the child's `end` equals the next pivot (or the parent's `end`
for the last child), depths decrease by one towards the leaves, leaf keys
are strictly increasing and lie within the node's range, and every
non-root node is nonempty. -/
def wfB : LBATree → Bool
  | .leaf m es => (m.depth == 1) && decide (m.begin_ < m.end_) &&
      sortedKeys es && keysWithin m.begin_ m.end_ es
  | .internal m cs =>
    decide (2 ≤ m.depth) && decide (m.begin_ < m.end_) &&
    (match cs with
     | [] => false
     | (p, _) :: _ => p == m.begin_) &&
    wfChainB m.end_ (m.depth - 1) cs
termination_by t => sizeOf t

/-- Well-formedness of a children list: each child is well-formed,
nonempty, has the pivot as its `begin`, the next pivot (or `hi`) as its
`end`, and depth `d`. -/
def wfChainB (hi d : Nat) : List (Nat × LBATree) → Bool
  | [] => true
  | (p, c) :: rest =>
    (wfB c && (c.begin_ == p) && (c.depth == d) && c.nonempty &&
     (c.end_ == match rest with
       | (p', _) :: _ => p'
       | [] => hi)) &&
    wfChainB hi d rest
termination_by cs => sizeOf cs
end

/-- Root well-formedness: the root covers `[0, L_ADDR_MAX)` (as set up by
`mkfs` and preserved by root growth/collapse). -/
def wfRootB (t : LBATree) : Bool :=
  wfB t && (t.begin_ == 0) && (t.end_ == L_ADDR_MAX)

/-- The internal-level chooser of `LBABtree::lower_bound`
(`lba_btree.cc:126-132`): `upper_bound(addr)` then step back one entry,
i.e. the last child whose pivot is `≤ addr`; `none` models the
`assert(iter != internal.begin())` failure (first pivot greater than
`addr`), which cannot happen on a well-formed descent.  The result is
returned as `(prefix, chosen entry, suffix)` of the children list. -/
def chooseChild3 (k : Nat) :
    List (Nat × LBATree) →
    Option (List (Nat × LBATree) × (Nat × LBATree) × List (Nat × LBATree))
  | [] => none
  | (p, c) :: rest =>
    if p ≤ k then
      match chooseChild3 k rest with
      | some (pre, ch, post) => some ((p, c) :: pre, ch, post)
      | none => some ([], (p, c), rest)
    else none

theorem chooseChild3_sizeOf {k : Nat} :
    ∀ {cs pre : List (Nat × LBATree)} {ch : Nat × LBATree}
      {post : List (Nat × LBATree)},
      chooseChild3 k cs = some (pre, ch, post) → sizeOf ch.2 < sizeOf cs := by
  intro cs
  induction cs with
  | nil => intro pre ch post h; simp [chooseChild3] at h
  | cons a rest ih =>
    intro pre ch post h
    obtain ⟨p, c⟩ := a
    simp only [chooseChild3] at h
    by_cases hp : p ≤ k
    · rw [if_pos hp] at h
      cases hrest : chooseChild3 k rest with
      | some r =>
        obtain ⟨pre', ch', post'⟩ := r
        rw [hrest] at h
        simp only [Option.some.injEq, Prod.mk.injEq] at h
        obtain ⟨-, h2, -⟩ := h
        have hlt := ih hrest
        rw [h2] at hlt
        have hc : sizeOf rest < sizeOf ((p, c) :: rest) := by
          simp only [List.cons.sizeOf_spec]; omega
        omega
      | none =>
        rw [hrest] at h
        simp only [Option.some.injEq, Prod.mk.injEq] at h
        obtain ⟨-, h2, -⟩ := h
        rw [← h2]
        simp only [List.cons.sizeOf_spec, Prod.mk.sizeOf_spec]
        omega
    · rw [if_neg hp] at h
      simp at h

/-- Model of `LBABtree::lower_bound` (`lba_btree.cc:118-153`) over the
algebraic tree, returning the leaf entry the resulting iterator points at
(`none` = the end iterator).

Modelled from the spec: the `lookup` driver itself lives in the header,
not in `src/`.  Per §4.4 it descends with the internal chooser
(`upper_bound(addr) - 1`, transliterated in `chooseChild3`) and the leaf's
`lower_bound` at the leaf, and, when the chosen leaf has no key `≥ addr`
but a later leaf does, the iterator ends up at the first entry of the next
leaf (this is the situation §4.4's `find_insertion` describes as "the
insertion point is actually at the end of the previous leaf"); we model
that boundary advance by falling through to the first entry of the
remaining siblings. -/
def lower_bound (k : Nat) : LBATree → Option (Nat × lba_map_val_t)
  | .leaf _ es => es.find? fun e => decide (k ≤ e.1)
  | .internal _ cs =>
    match h : chooseChild3 k cs with
    | some (_, ch, post) =>
      match lower_bound k ch.2 with
      | some e => some e
      | none => firstEntryChain post
    | none => none
termination_by t => sizeOf t
decreasing_by
  have hlt := chooseChild3_sizeOf h
  simp only [LBATree.internal.sizeOf_spec]
  omega

theorem chainEntries_append (l r : List (Nat × LBATree)) :
    chainEntries (l ++ r) = chainEntries l ++ chainEntries r := by
  induction l with
  | nil => simp [chainEntries]
  | cons a rest ih =>
    obtain ⟨p, c⟩ := a
    simp [chainEntries, ih]

mutual
theorem firstEntryTree_eq_head? : ∀ (t : LBATree),
    firstEntryTree t = (treeEntries t).head?
  | .leaf _ es => by simp [firstEntryTree, treeEntries]
  | .internal _ cs => by
    rw [show firstEntryTree (.internal _ cs) = firstEntryChain cs from by
          simp [firstEntryTree],
        show treeEntries (.internal _ cs) = chainEntries cs from by
          simp [treeEntries]]
    exact firstEntryChain_eq_head? cs
termination_by t => sizeOf t

theorem firstEntryChain_eq_head? : ∀ (cs : List (Nat × LBATree)),
    firstEntryChain cs = (chainEntries cs).head?
  | [] => by simp [firstEntryChain, chainEntries]
  | (p, c) :: rest => by
    rw [show firstEntryChain ((p, c) :: rest) =
          (match firstEntryTree c with
           | some e => some e
           | none => firstEntryChain rest) from by simp [firstEntryChain],
        show chainEntries ((p, c) :: rest) =
          treeEntries c ++ chainEntries rest from by simp [chainEntries],
        List.head?_append, firstEntryTree_eq_head? c,
        firstEntryChain_eq_head? rest]
    cases (treeEntries c).head? <;> simp [Option.or]
termination_by cs => sizeOf cs
end

theorem chooseChild3_eq_append {k : Nat} :
    ∀ {cs pre : List (Nat × LBATree)} {ch : Nat × LBATree}
      {post : List (Nat × LBATree)},
      chooseChild3 k cs = some (pre, ch, post) → cs = pre ++ ch :: post := by
  intro cs
  induction cs with
  | nil => intro pre ch post h; simp [chooseChild3] at h
  | cons a rest ih =>
    intro pre ch post h
    obtain ⟨p, c⟩ := a
    simp only [chooseChild3] at h
    by_cases hp : p ≤ k
    · rw [if_pos hp] at h
      cases hrest : chooseChild3 k rest with
      | some r =>
        obtain ⟨pre', ch', post'⟩ := r
        rw [hrest] at h
        simp only [Option.some.injEq, Prod.mk.injEq] at h
        obtain ⟨h1, h2, h3⟩ := h
        rw [← h1, ← h2, ← h3]
        simpa using congrArg (List.cons (p, c)) (ih hrest)
      | none =>
        rw [hrest] at h
        simp only [Option.some.injEq, Prod.mk.injEq] at h
        obtain ⟨h1, h2, h3⟩ := h
        rw [← h1, ← h2, ← h3]
        simp
    · rw [if_neg hp] at h; simp at h

theorem chooseChild3_pivot_le {k : Nat} :
    ∀ {cs pre : List (Nat × LBATree)} {ch : Nat × LBATree}
      {post : List (Nat × LBATree)},
      chooseChild3 k cs = some (pre, ch, post) → ch.1 ≤ k := by
  intro cs
  induction cs with
  | nil => intro pre ch post h; simp [chooseChild3] at h
  | cons a rest ih =>
    intro pre ch post h
    obtain ⟨p, c⟩ := a
    simp only [chooseChild3] at h
    by_cases hp : p ≤ k
    · rw [if_pos hp] at h
      cases hrest : chooseChild3 k rest with
      | some r =>
        obtain ⟨pre', ch', post'⟩ := r
        rw [hrest] at h
        simp only [Option.some.injEq, Prod.mk.injEq] at h
        obtain ⟨-, h2, -⟩ := h
        rw [← h2]
        exact ih hrest
      | none =>
        rw [hrest] at h
        simp only [Option.some.injEq, Prod.mk.injEq] at h
        obtain ⟨-, h2, -⟩ := h
        rw [← h2]
        exact hp
    · rw [if_neg hp] at h; simp at h

theorem chooseChild3_none {k : Nat} {p' : Nat} {c' : LBATree}
    {post' : List (Nat × LBATree)}
    (h : chooseChild3 k ((p', c') :: post') = none) : k < p' := by
  simp only [chooseChild3] at h
  by_cases hp : p' ≤ k
  · rw [if_pos hp] at h
    cases hrest : chooseChild3 k post' with
    | some r => obtain ⟨pre', ch', post''⟩ := r; rw [hrest] at h; simp at h
    | none => rw [hrest] at h; simp at h
  · omega

theorem chooseChild3_post_gt {k : Nat} :
    ∀ {cs pre : List (Nat × LBATree)} {ch : Nat × LBATree}
      {post post' : List (Nat × LBATree)} {p' : Nat} {c' : LBATree},
      chooseChild3 k cs = some (pre, ch, post) →
      post = (p', c') :: post' → k < p' := by
  intro cs
  induction cs with
  | nil => intro pre ch post post' p' c' h hpost; simp [chooseChild3] at h
  | cons a rest ih =>
    intro pre ch post post' p' c' h hpost
    obtain ⟨p, c⟩ := a
    simp only [chooseChild3] at h
    by_cases hp : p ≤ k
    · rw [if_pos hp] at h
      cases hrest : chooseChild3 k rest with
      | some r =>
        obtain ⟨pre', ch', post''⟩ := r
        rw [hrest] at h
        simp only [Option.some.injEq, Prod.mk.injEq] at h
        obtain ⟨-, -, h3⟩ := h
        exact ih hrest (by rw [h3, hpost])
      | none =>
        rw [hrest] at h
        simp only [Option.some.injEq, Prod.mk.injEq] at h
        obtain ⟨-, -, h3⟩ := h
        rw [← h3] at hpost
        subst hpost
        exact chooseChild3_none hrest
    · rw [if_neg hp] at h; simp at h

theorem chooseChild3_cons_isSome {k p : Nat} {c : LBATree}
    {rest : List (Nat × LBATree)} (hp : p ≤ k) :
    (chooseChild3 k ((p, c) :: rest)).isSome = true := by
  simp only [chooseChild3, if_pos hp]
  cases hrest : chooseChild3 k rest with
  | some r => obtain ⟨pre', ch', post'⟩ := r; simp
  | none => simp

theorem wfB_begin_lt_end : ∀ {t : LBATree}, wfB t = true → t.begin_ < t.end_ := by
  intro t h
  cases t with
  | leaf m es =>
    simp only [wfB, Bool.and_eq_true, decide_eq_true_eq] at h
    simpa [LBATree.begin_, LBATree.end_] using h.1.1.2
  | internal m cs =>
    rcases cs with _ | ⟨⟨p, c⟩, rest⟩ <;>
      · simp only [wfB, Bool.and_eq_true, decide_eq_true_eq] at h
        simpa [LBATree.begin_, LBATree.end_] using h.1.1.2

theorem wfChainB_cons {hi d p : Nat} {c : LBATree} {rest : List (Nat × LBATree)} :
    wfChainB hi d ((p, c) :: rest) = true ↔
      (wfB c = true ∧ c.begin_ = p ∧ c.depth = d ∧ c.nonempty = true ∧
       c.end_ = (match rest with | (p', _) :: _ => p' | [] => hi) ∧
       wfChainB hi d rest = true) := by
  rcases rest with _ | ⟨⟨p', c'⟩, rest'⟩ <;>
    · simp only [wfChainB, Bool.and_eq_true, beq_iff_eq, decide_eq_true_eq]
      tauto

theorem wfChainB_middle {hi d : Nat} :
    ∀ {pre : List (Nat × LBATree)} {p : Nat} {c : LBATree}
      {post : List (Nat × LBATree)},
      wfChainB hi d (pre ++ (p, c) :: post) = true →
      wfB c = true ∧ c.begin_ = p ∧ c.depth = d ∧ c.nonempty = true ∧
      c.end_ = (match post with | (p', _) :: _ => p' | [] => hi) ∧
      wfChainB hi d post = true := by
  intro pre
  induction pre with
  | nil => intro p c post h; simpa using wfChainB_cons.mp h
  | cons a pre' ih =>
    intro p c post h
    obtain ⟨q, b⟩ := a
    rw [List.cons_append] at h
    exact ih (wfChainB_cons.mp h).2.2.2.2.2

/-- The pivot of the first child (0 when there is none). -/
def headPivotD (cs : List (Nat × LBATree)) : Nat :=
  (cs.head?.map Prod.fst).getD 0

mutual
theorem entries_bound : ∀ (t : LBATree), wfB t = true →
    ∀ e ∈ treeEntries t, t.begin_ ≤ e.1 ∧ e.1 < t.end_
  | .leaf m es => by
    intro h e he
    simp only [wfB, Bool.and_eq_true, decide_eq_true_eq] at h
    obtain ⟨-, hwithin⟩ := h
    simp only [treeEntries] at he
    simp only [keysWithin, List.all_eq_true, Bool.and_eq_true,
      decide_eq_true_eq] at hwithin
    simpa [LBATree.begin_, LBATree.end_] using hwithin e he
  | .internal m cs => by
    intro h e he
    rcases cs with _ | ⟨⟨p, c⟩, rest⟩
    · simp [wfB] at h
    · simp only [wfB, Bool.and_eq_true, decide_eq_true_eq, beq_iff_eq] at h
      obtain ⟨⟨⟨-, -⟩, hpiv⟩, hchain⟩ := h
      simp only [treeEntries] at he
      have hb := chain_bound m.end_ (m.depth - 1) ((p, c) :: rest) hchain
      have h1 := hb.1 e he
      simp only [headPivotD, List.head?, Option.map, Option.getD] at h1
      simp only [LBATree.begin_, LBATree.end_]
      omega
termination_by t => sizeOf t

theorem chain_bound : ∀ (hi d : Nat) (cs : List (Nat × LBATree)),
    wfChainB hi d cs = true →
    (∀ e ∈ chainEntries cs, headPivotD cs ≤ e.1 ∧ e.1 < hi) ∧
    (cs ≠ [] → headPivotD cs < hi)
  | hi, d, [] => by
    intro _
    refine ⟨fun e he => ?_, fun hne => absurd rfl hne⟩
    simp [chainEntries] at he
  | hi, d, (p, c) :: rest => by
    intro h
    obtain ⟨hwf, hbeg, hdep, hne, hend, hrest⟩ := wfChainB_cons.mp h
    have ihr := chain_bound hi d rest hrest
    have hce := entries_bound c hwf
    have hlt := wfB_begin_lt_end hwf
    have hced : c.end_ ≤ hi := by
      rcases rest with _ | ⟨⟨p', c'⟩, rest'⟩
      · simp only at hend; omega
      · have hp' := ihr.2 (by simp)
        simp only [headPivotD, List.head?, Option.map, Option.getD] at hp'
        simp only at hend
        omega
    refine ⟨fun e he => ?_, fun _ => ?_⟩
    · rw [show chainEntries ((p, c) :: rest) =
            treeEntries c ++ chainEntries rest from by simp [chainEntries]] at he
      simp only [headPivotD, List.head?, Option.map, Option.getD]
      rcases List.mem_append.mp he with hin | hin
      · have hb := hce e hin
        omega
      · have hb := ihr.1 e hin
        rcases rest with _ | ⟨⟨p', c'⟩, rest'⟩
        · simp [chainEntries] at hin
        · simp only [headPivotD, List.head?, Option.map, Option.getD] at hb
          simp only at hend
          omega
    · simp only [headPivotD, List.head?, Option.map, Option.getD]
      omega
termination_by hi d cs => sizeOf cs
end

/-- Strict key order on entries. -/
def keyLt {α : Type} (a b : Nat × α) : Prop := a.1 < b.1

instance {α : Type} : IsTrans (Nat × α) keyLt := ⟨fun _ _ _ => Nat.lt_trans⟩

theorem sortedKeys_iff_chain {α : Type} : ∀ (es : List (Nat × α)),
    sortedKeys es = true ↔ List.Chain' keyLt es
  | [] => by simp [sortedKeys]
  | [a] => by simp [sortedKeys]
  | a :: b :: rest => by
    rw [show sortedKeys (a :: b :: rest) =
          (decide (a.1 < b.1) && sortedKeys (b :: rest)) from by
        simp [sortedKeys]]
    rw [List.chain'_cons, Bool.and_eq_true, decide_eq_true_eq,
      sortedKeys_iff_chain (b :: rest)]
    exact Iff.rfl

theorem sortedKeys_pairwise {α : Type} {es : List (Nat × α)}
    (h : sortedKeys es = true) : es.Pairwise keyLt :=
  List.chain'_iff_pairwise.mp ((sortedKeys_iff_chain es).mp h)

mutual
theorem entries_pairwise : ∀ (t : LBATree), wfB t = true →
    (treeEntries t).Pairwise keyLt
  | .leaf m es => by
    intro h
    simp only [wfB, Bool.and_eq_true, decide_eq_true_eq] at h
    rw [show treeEntries (.leaf m es) = es from by simp [treeEntries]]
    exact sortedKeys_pairwise h.1.2
  | .internal m cs => by
    intro h
    rcases cs with _ | ⟨⟨p, c⟩, rest⟩
    · simp [wfB] at h
    · simp only [wfB, Bool.and_eq_true, decide_eq_true_eq, beq_iff_eq] at h
      rw [show treeEntries (.internal m ((p, c) :: rest)) =
            chainEntries ((p, c) :: rest) from by simp [treeEntries]]
      exact chain_pairwise m.end_ (m.depth - 1) ((p, c) :: rest) h.2
termination_by t => sizeOf t

theorem chain_pairwise : ∀ (hi d : Nat) (cs : List (Nat × LBATree)),
    wfChainB hi d cs = true → (chainEntries cs).Pairwise keyLt
  | hi, d, [] => by intro h; simp [chainEntries]
  | hi, d, (p, c) :: rest => by
    intro h
    obtain ⟨hwf, hbeg, hdep, hne, hend, hrest⟩ := wfChainB_cons.mp h
    rw [show chainEntries ((p, c) :: rest) =
          treeEntries c ++ chainEntries rest from by simp [chainEntries]]
    rw [List.pairwise_append]
    refine ⟨entries_pairwise c hwf, chain_pairwise hi d rest hrest, ?_⟩
    intro a ha b hb
    have hac := entries_bound c hwf a ha
    rcases rest with _ | ⟨⟨p', c'⟩, rest'⟩
    · simp [chainEntries] at hb
    · have hbc := (chain_bound hi d ((p', c') :: rest') hrest).1 b hb
      simp only [headPivotD, List.head?, Option.map, Option.getD] at hbc
      simp only at hend
      show a.1 < b.1
      omega
termination_by hi d cs => sizeOf cs
end

theorem find?_eq_head?_of_all {α : Type} {p : α → Bool} {l : List α}
    (h : ∀ x ∈ l, p x = true) : l.find? p = l.head? := by
  cases l with
  | nil => rfl
  | cons a l => rw [List.find?_cons_of_pos _ (h a (by simp))]; rfl

theorem match_option_eq_or {α : Type} (o : Option α) (x : Option α) :
    (match o with | some e => some e | none => x) = o.or x := by
  cases o <;> rfl

theorem wfChainB_front {hi d : Nat} :
    ∀ {pre post : List (Nat × LBATree)},
      wfChainB hi d (pre ++ post) = true → post ≠ [] →
      wfChainB (headPivotD post) d pre = true := by
  intro pre
  induction pre with
  | nil => intro post h hne; simp [wfChainB]
  | cons a pre' ih =>
    intro post h hne
    obtain ⟨q, b⟩ := a
    rw [List.cons_append] at h
    obtain ⟨hwf, hbeg, hdep, hnee, hend, hrest⟩ := wfChainB_cons.mp h
    rw [wfChainB_cons]
    refine ⟨hwf, hbeg, hdep, hnee, ?_, ih hrest hne⟩
    rcases pre' with _ | ⟨⟨q', b'⟩, pre''⟩
    · rcases post with _ | ⟨⟨pp, cc⟩, post'⟩
      · exact absurd rfl hne
      · simpa [headPivotD] using hend
    · simpa using hend

theorem lower_bound_eq_find? (k : Nat) : ∀ (t : LBATree), wfB t = true →
    t.begin_ ≤ k →
    lower_bound k t = (treeEntries t).find? fun e => decide (k ≤ e.1)
  | .leaf m es => by
    intro h hk
    simp [lower_bound, treeEntries]
  | .internal m cs => by
    intro h hk
    rcases cs with _ | ⟨⟨p0, c0⟩, rest⟩
    · simp [wfB] at h
    · simp only [wfB, Bool.and_eq_true, decide_eq_true_eq, beq_iff_eq] at h
      obtain ⟨⟨⟨hd2, hbe⟩, hpiv⟩, hchain⟩ := h
      have hp0k : p0 ≤ k := by
        simp only [LBATree.begin_] at hk; omega
      cases hc : chooseChild3 k ((p0, c0) :: rest) with
      | none =>
        have hs := @chooseChild3_cons_isSome k p0 c0 rest hp0k
        rw [hc] at hs; simp at hs
      | some r =>
        obtain ⟨pre, ⟨pc, cc⟩, post⟩ := r
        have hsplit := chooseChild3_eq_append hc
        have hple : pc ≤ k := chooseChild3_pivot_le hc
        have hmid := @wfChainB_middle m.end_ (m.depth - 1) pre pc cc post
          (by rw [← hsplit]; exact hchain)
        obtain ⟨hwfc, hbegc, hdepc, hnec, hendc, hpostwf⟩ := hmid
        have hih := lower_bound_eq_find? k cc hwfc (by rw [hbegc]; exact hple)
        have hunfold : lower_bound k (.internal m ((p0, c0) :: rest)) =
            (match lower_bound k cc with
             | some e => some e
             | none => firstEntryChain post) := by
          rw [lower_bound]
          rw [hc]
        have hunfold2 : lower_bound k (.internal m ((p0, c0) :: rest)) =
            (lower_bound k cc).or (firstEntryChain post) := by
          rw [hunfold]; cases lower_bound k cc <;> rfl
        rw [hunfold2, hih]
        rw [show treeEntries (.internal m ((p0, c0) :: rest)) =
              chainEntries ((p0, c0) :: rest) from by simp [treeEntries]]
        rw [hsplit, chainEntries_append]
        rw [show chainEntries ((pc, cc) :: post) =
              treeEntries cc ++ chainEntries post from by simp [chainEntries]]
        rw [show chainEntries pre ++ (treeEntries cc ++ chainEntries post) =
              (chainEntries pre ++ treeEntries cc) ++ chainEntries post from by
            simp]
        rw [List.find?_append, List.find?_append]
        -- the prefix part finds nothing: all its keys are < pc ≤ k
        have hprewf : wfChainB pc (m.depth - 1) pre := by
          have := @wfChainB_front m.end_ (m.depth - 1) pre ((pc, cc) :: post)
            (by rw [← hsplit]; exact hchain) (by simp)
          simpa [headPivotD] using this
        have hprenone :
            (chainEntries pre).find? (fun e => decide (k ≤ e.1)) = none := by
          rw [List.find?_eq_none]
          intro e he
          have hb := (chain_bound pc (m.depth - 1) pre hprewf).1 e he
          simp only [decide_eq_true_eq]
          omega
        -- every key in the suffix satisfies the predicate
        have hpostall : (chainEntries post).find? (fun e => decide (k ≤ e.1)) =
            (chainEntries post).head? := by
          apply find?_eq_head?_of_all
          intro e he
          rcases hpost : post with _ | ⟨⟨p', c'⟩, post'⟩
          · rw [hpost] at he; simp [chainEntries] at he
          · rw [hpost] at he
            have hgt : k < p' := chooseChild3_post_gt hc hpost
            have hb := (chain_bound m.end_ (m.depth - 1) ((p', c') :: post')
              (hpost ▸ hpostwf)).1 e he
            simp only [headPivotD, List.head?, Option.map, Option.getD] at hb
            simp only [decide_eq_true_eq]
            omega
        rw [hprenone, hpostall, firstEntryChain_eq_head? post]
        cases (treeEntries cc).find? (fun e => decide (k ≤ e.1)) <;>
          simp [Option.or]
termination_by t => sizeOf t
decreasing_by
  have := chooseChild3_sizeOf hc
  simp only [LBATree.internal.sizeOf_spec]
  simp only at this
  omega

theorem find?_min_of_pairwise {α : Type} {es : List (Nat × α)} {k : Nat}
    {e : Nat × α} (hp : es.Pairwise keyLt)
    (hf : es.find? (fun x => decide (k ≤ x.1)) = some e) :
    ∀ e' ∈ es, k ≤ e'.1 → e.1 ≤ e'.1 := by
  induction es with
  | nil => simp at hf
  | cons a es ih =>
    intro e' he' hk
    by_cases ha : k ≤ a.1
    · rw [List.find?_cons_of_pos _ (by simpa using ha)] at hf
      have hea : e = a := by cases hf; rfl
      subst hea
      rcases List.mem_cons.mp he' with rfl | he'
      · exact Nat.le_refl _
      · have := (List.pairwise_cons.mp hp).1 e' he'
        simp only [keyLt] at this
        omega
    · rw [List.find?_cons_of_neg _ (by simpa using ha)] at hf
      rcases List.mem_cons.mp he' with rfl | he'
      · omega
      · exact ih (List.pairwise_cons.mp hp).2 hf e' he' hk

theorem find?_of_mem_pairwise {α : Type} {es : List (Nat × α)} {k : Nat}
    {v : α} (hp : es.Pairwise keyLt) (hm : (k, v) ∈ es) :
    es.find? (fun x => decide (k ≤ x.1)) = some (k, v) := by
  induction es with
  | nil => simp at hm
  | cons a es ih =>
    rcases List.mem_cons.mp hm with rfl | hm'
    · rw [List.find?_cons_of_pos]
      simp
    · by_cases ha : k ≤ a.1
      · have := (List.pairwise_cons.mp hp).1 (k, v) hm'
        simp only [keyLt] at this
        omega
      · rw [List.find?_cons_of_neg _ (by simpa using ha)]
        exact ih (List.pairwise_cons.mp hp).2 hm'

theorem wfRootB_parts {t : LBATree} (h : wfRootB t = true) :
    wfB t = true ∧ t.begin_ = 0 ∧ t.end_ = L_ADDR_MAX := by
  simpa [wfRootB, Bool.and_eq_true, beq_iff_eq, and_assoc] using h

theorem lower_bound_of_mem {t : LBATree} {k : Nat} {v : lba_map_val_t}
    (h : wfB t = true) (hb : t.begin_ ≤ k) (hm : (k, v) ∈ treeEntries t) :
    lower_bound k t = some (k, v) := by
  rw [lower_bound_eq_find? k t h hb]
  exact find?_of_mem_pairwise (entries_pairwise t h) hm

/-- C1: for every well-formed tree state and every logical address `k`,
`lower_bound(ctx, k)` returns an iterator positioned at the smallest leaf
key that is `≥ k` (modelled as `some` of that leaf entry), or the end
iterator (`none`) if no such key exists.  `lower_bound` is a total
function into these two outcomes — there is no "not found" error. -/
theorem claim_C1 (t : LBATree) (k : Nat) (h : wfRootB t = true) :
    (∀ e, lower_bound k t = some e →
      e ∈ treeEntries t ∧ k ≤ e.1 ∧
      ∀ e' ∈ treeEntries t, k ≤ e'.1 → e.1 ≤ e'.1) ∧
    (lower_bound k t = none → ∀ e' ∈ treeEntries t, e'.1 < k) := by
  obtain ⟨hwf, hb, -⟩ := wfRootB_parts h
  have hfind := lower_bound_eq_find? k t hwf (by omega)
  constructor
  · intro e he
    rw [hfind] at he
    refine ⟨List.mem_of_find?_eq_some he, ?_, ?_⟩
    · have := List.find?_some he
      simpa using this
    · exact find?_min_of_pairwise (entries_pairwise t hwf) he
  · intro hnone e' he'
    rw [hfind, List.find?_eq_none] at hnone
    have := hnone e' he'
    simp only [decide_eq_true_eq] at this
    omega

/-- Offset of the first entry with key `≥ k` within a node
(`leaf.lower_bound(addr).get_offset()`). -/
def lowerBoundIdx {α : Type} (es : List (Nat × α)) (k : Nat) : Nat :=
  (es.takeWhile fun e => decide (e.1 < k)).length

/-- Result of one level of the insert path: either a rebuilt node or a
split pair with its pivot (as produced by `make_split_children` and
consumed one level up, `lba_btree.cc:523-553`). -/
inductive InsRes where
  | ok (t : LBATree)
  | split (l : LBATree) (pivot : Nat) (r : LBATree)

/-- Output of the insert descent: the structural result, the leaf entry
the returned iterator points at, and the `inserted` flag. -/
structure InsOut where
  res : InsRes
  cursor : Option (Nat × lba_map_val_t)
  inserted : Bool

/-- Update the value (child) of entry `i`, keeping its key — the
`parent_node->update(parent_iter, left->get_paddr())` step of
`split_level`.  Out-of-range indices leave the list unchanged (the C++
counterpart would write past the node's live entries). -/
def updChild (es : List (Nat × LBATree)) (i : Nat) (c : LBATree) :
    List (Nat × LBATree) :=
  match es[i]? with
  | some (p, _) => es.set i (p, c)
  | none => es

/-- Fresh-key insertion into a leaf.  Modelled from the spec:
`make_split_children` (header-only) "allocates two new pending nodes
holding roughly half the entries each; pivot is the first key of right" —
we split at `cap / 2`.  The split-before-insert order and the `pos ≤
left.size` cursor rule follow `handle_split`/`split_level`
(`lba_btree.cc:539-552`); the entry is then inserted at the leaf cursor
(`lba_btree.cc:193-196`). -/
def insertLeafFresh (cap : Nat) (m : lba_node_meta_t)
    (es : List (Nat × lba_map_val_t)) (k : Nat) (v : lba_map_val_t) :
    InsOut :=
  let pos := lowerBoundIdx es k
  if es.length = cap then
    let les := es.take (cap / 2)
    let res := es.drop (cap / 2)
    let pivot := (res.head?.map Prod.fst).getD 0
    if pos ≤ les.length then
      ⟨.split (.leaf ⟨m.begin_, pivot, m.depth⟩ (les.insertIdx pos (k, v)))
          pivot (.leaf ⟨pivot, m.end_, m.depth⟩ res),
        some (k, v), true⟩
    else
      ⟨.split (.leaf ⟨m.begin_, pivot, m.depth⟩ les) pivot
          (.leaf ⟨pivot, m.end_, m.depth⟩
            (res.insertIdx (pos - les.length) (k, v))),
        some (k, v), true⟩
  else ⟨.ok (.leaf m (es.insertIdx pos (k, v))), some (k, v), true⟩

/-- Leaf step of the insert path: re-check for a live equal key with the
leaf's `lower_bound` (`lba_btree.cc:187-191`), returning `(cursor, false)`
on a duplicate, otherwise insert (splitting first when the leaf is at
capacity). -/
def insertLeaf (cap : Nat) (m : lba_node_meta_t)
    (es : List (Nat × lba_map_val_t)) (k : Nat) (v : lba_map_val_t) :
    InsOut :=
  match es.find? fun e => decide (k ≤ e.1) with
  | some e =>
    if e.1 = k then ⟨.ok (.leaf m es), some e, false⟩
    else insertLeafFresh cap m es k v
  | none => insertLeafFresh cap m es k v

/-- The insert descent: walk to the leaf owning `k` (the net effect of the
`lower_bound` hint plus `find_insertion`, which lands on the leaf with
`meta.begin ≤ laddr < meta.end`, `lba_btree.cc:194-195`), insert there,
and propagate splits upward; a node at capacity is split before receiving
the new entry, and the `(pivot, right)` entry is placed immediately after
the child's slot in whichever half the `pos ≤ left.size` rule selects
(`split_level`, `lba_btree.cc:523-553`).  `none` from the chooser (first
pivot `> k`) is the chooser's assert failure and returns the node
unchanged. -/
def insertNode (cap : Nat) (k : Nat) (v : lba_map_val_t) : LBATree → InsOut
  | .leaf m es => insertLeaf cap m es k v
  | .internal m cs =>
    match hc : chooseChild3 k cs with
    | none => ⟨.ok (.internal m cs), none, false⟩
    | some (pre, ch, post) =>
      let co := insertNode cap k v ch.2
      match co.res with
      | .ok c2 =>
        ⟨.ok (.internal m (pre ++ (ch.1, c2) :: post)), co.cursor,
          co.inserted⟩
      | .split cl pivot cr =>
        if cs.length = cap then
          let i := pre.length
          let les := cs.take (cap / 2)
          let res := cs.drop (cap / 2)
          let pivotN := (res.head?.map Prod.fst).getD 0
          if i ≤ les.length then
            ⟨.split (.internal ⟨m.begin_, pivotN, m.depth⟩
                  ((updChild les i cl).insertIdx (i + 1) (pivot, cr)))
                pivotN (.internal ⟨pivotN, m.end_, m.depth⟩ res),
              co.cursor, co.inserted⟩
          else
            ⟨.split (.internal ⟨m.begin_, pivotN, m.depth⟩ les) pivotN
                (.internal ⟨pivotN, m.end_, m.depth⟩
                  ((updChild res (i - les.length) cl).insertIdx
                    (i - les.length + 1) (pivot, cr))),
              co.cursor, co.inserted⟩
        else
          ⟨.ok (.internal m (pre ++ (ch.1, cl) :: (pivot, cr) :: post)),
            co.cursor, co.inserted⟩
termination_by t => sizeOf t
decreasing_by
  have := chooseChild3_sizeOf hc
  simp only [LBATree.internal.sizeOf_spec]
  omega

/-- Fresh-key path of `LBABtree::insert`: `handle_split` plus the leaf
insert; a root split grows a new root of depth `+1` whose first entry has
pivot `L_ADDR_MIN` (`handle_split`, `lba_btree.cc:502-519`, followed by
the top `split_level`, which leaves the new root with the two split
halves). -/
def insertFresh (cap : Nat) (t : LBATree) (k : Nat) (v : lba_map_val_t) :
    LBATree × Option (Nat × lba_map_val_t) × Bool :=
  match insertNode cap k v t with
  | ⟨.ok t2, cur, b⟩ => (t2, cur, b)
  | ⟨.split l pivot r, cur, b⟩ =>
    (.internal ⟨t.begin_, t.end_, t.depth + 1⟩ [(L_ADDR_MIN, l), (pivot, r)],
      cur, b)

/-- Model of `LBABtree::insert` (`lba_btree.cc:155-205`) with the iterator
hint taken to be the `lower_bound(laddr)` result (the standard caller
protocol; `find_insertion` asserts exactly this shape).  If the hint-level
check finds a live equal key, return `(cursor, false)` with no mutation
(`lba_btree.cc:173-176`); otherwise run the fresh-key path.  Returns
`(tree, cursor entry, inserted)`. -/
def insert (cap : Nat) (t : LBATree) (k : Nat) (v : lba_map_val_t) :
    LBATree × Option (Nat × lba_map_val_t) × Bool :=
  match lower_bound k t with
  | some e =>
    if e.1 = k then (t, some e, false)
    else insertFresh cap t k v
  | none => insertFresh cap t k v

theorem insertLeafFresh_out (cap : Nat) (m : lba_node_meta_t)
    (es : List (Nat × lba_map_val_t)) (k : Nat) (v : lba_map_val_t) :
    (insertLeafFresh cap m es k v).cursor = some (k, v) ∧
    (insertLeafFresh cap m es k v).inserted = true := by
  unfold insertLeafFresh
  split
  · dsimp only
    split <;> exact ⟨rfl, rfl⟩
  · exact ⟨rfl, rfl⟩

theorem insertFresh_out (cap : Nat) (t : LBATree) (k : Nat)
    (v : lba_map_val_t) :
    (insertFresh cap t k v).2.1 = (insertNode cap k v t).cursor ∧
    (insertFresh cap t k v).2.2 = (insertNode cap k v t).inserted := by
  unfold insertFresh
  cases hres : insertNode cap k v t with
  | mk res cur b => cases res <;> simp

theorem insertNode_fresh (cap : Nat) (k : Nat) (v : lba_map_val_t) :
    ∀ (t : LBATree), wfB t = true → t.begin_ ≤ k →
    (∀ w, (k, w) ∉ treeEntries t) →
    (insertNode cap k v t).cursor = some (k, v) ∧
    (insertNode cap k v t).inserted = true
  | .leaf m es => by
    intro hwf hb hnotin
    rw [show insertNode cap k v (.leaf m es) = insertLeaf cap m es k v from by
      simp [insertNode]]
    unfold insertLeaf
    cases hf : es.find? fun e => decide (k ≤ e.1) with
    | none => exact insertLeafFresh_out cap m es k v
    | some e =>
      by_cases he : e.1 = k
      · exfalso
        have hm := List.mem_of_find?_eq_some hf
        obtain ⟨ek, ev⟩ := e
        apply hnotin ev
        rw [show treeEntries (.leaf m es) = es from by simp [treeEntries]]
        simp only at he
        rwa [← he]
      · dsimp only
        rw [if_neg he]
        exact insertLeafFresh_out cap m es k v
  | .internal m cs => by
    intro hwf hb hnotin
    rcases cs with _ | ⟨⟨p0, c0⟩, rest⟩
    · simp [wfB] at hwf
    · simp only [wfB, Bool.and_eq_true, decide_eq_true_eq, beq_iff_eq] at hwf
      obtain ⟨⟨⟨hd2, hbe⟩, hpiv⟩, hchain⟩ := hwf
      have hp0k : p0 ≤ k := by
        simp only [LBATree.begin_] at hb; omega
      cases hc : chooseChild3 k ((p0, c0) :: rest) with
      | none =>
        have hs := @chooseChild3_cons_isSome k p0 c0 rest hp0k
        rw [hc] at hs; simp at hs
      | some r =>
        obtain ⟨pre, ⟨pc, cc⟩, post⟩ := r
        have hsplit := chooseChild3_eq_append hc
        have hple : pc ≤ k := chooseChild3_pivot_le hc
        have hmid := @wfChainB_middle m.end_ (m.depth - 1) pre pc cc post
          (by rw [← hsplit]; exact hchain)
        have hsub : ∀ w, (k, w) ∉ treeEntries cc := by
          intro w hw
          apply hnotin w
          rw [show treeEntries (.internal m ((p0, c0) :: rest)) =
                chainEntries ((p0, c0) :: rest) from by simp [treeEntries],
            hsplit, chainEntries_append,
            show chainEntries ((pc, cc) :: post) =
              treeEntries cc ++ chainEntries post from by simp [chainEntries]]
          simp [hw]
        have hih := insertNode_fresh cap k v cc hmid.1
          (by rw [hmid.2.1]; exact hple) hsub
        rw [insertNode]
        rw [hc]
        cases hres : (insertNode cap k v cc).res with
        | ok c2 =>
          simp only [hres]
          exact hih
        | split cl pivot cr =>
          simp only [hres]
          split
          · split <;> exact hih
          · exact hih
termination_by t => sizeOf t
decreasing_by
  have := chooseChild3_sizeOf hc
  simp only [LBATree.internal.sizeOf_spec]
  simp only at this
  omega

/-- C2: for every key `k` already live in the tree with value `v`, a
subsequent `insert(ctx, iter, k, v')` (with the standard
`lower_bound`-hint iterator) returns the pair (cursor positioned at the
existing entry, `false`) and the tree is unchanged, so the value stored at
`k` remains `v`; insert of a key not present returns (cursor at the new
entry `(k, v')`, `true`). -/
theorem claim_C2 (cap : Nat) (t : LBATree) (k : Nat) (v v' : lba_map_val_t)
    (h : wfRootB t = true) :
    ((k, v) ∈ treeEntries t →
      insert cap t k v' = (t, some (k, v), false)) ∧
    ((∀ w, (k, w) ∉ treeEntries t) →
      (insert cap t k v').2.1 = some (k, v') ∧
      (insert cap t k v').2.2 = true) := by
  obtain ⟨hwf, hb, -⟩ := wfRootB_parts h
  constructor
  · intro hm
    have hlb := lower_bound_of_mem hwf (by omega) hm
    simp [insert, hlb]
  · intro hnot
    have hlbcase : ∀ e, lower_bound k t = some e → ¬ e.1 = k := by
      intro e he hek
      rw [lower_bound_eq_find? k t hwf (by omega)] at he
      have hm := List.mem_of_find?_eq_some he
      obtain ⟨ek, ev⟩ := e
      simp only at hek
      exact hnot ev (by rwa [hek] at hm)
    have hfr := insertNode_fresh cap k v' t hwf (by omega) hnot
    have hout := insertFresh_out cap t k v'
    unfold insert
    cases hlb : lower_bound k t with
    | some e =>
      dsimp only
      rw [if_neg (hlbcase e hlb)]
      exact ⟨hout.1.trans hfr.1, hout.2.trans hfr.2⟩
    | none =>
      exact ⟨hout.1.trans hfr.1, hout.2.trans hfr.2⟩

/-- A logical (client-data) cached extent: its logical address, physical
address and length, as read back by the cache. -/
structure LogicalExtent where
  laddr : Nat
  paddr : paddr_t
  length : Nat
  deriving DecidableEq, Repr

/-- Outcome of `init_cached_extent` on a logical extent: `live` (pin set
from the iterator and registered, extent returned), `dropped`
(`drop_from_cache` called, null returned), or `assert_fail` (a
`ceph_assert` aborted). -/
inductive InitExtentResult where
  | live
  | dropped
  | assert_fail
  deriving DecidableEq, Repr

/-- Model of the logical-extent branch of `LBABtree::init_cached_extent`
(`lba_btree.cc:265-285`): run `lower_bound(laddr)`; the liveness check is
`!iter.is_end() && iter.get_key() == laddr && iter.get_val().paddr ==
paddr`.  On the live path the pin is set, the mapped length is asserted
equal to the extent's length (`ceph_assert`, `lba_btree.cc:275`), the pin
is registered and the extent returned; otherwise the extent is dropped
from the cache and null returned. -/
def init_cached_extent_logical (t : LBATree) (e : LogicalExtent) :
    InitExtentResult :=
  match lower_bound e.laddr t with
  | some entry =>
    if entry.1 = e.laddr ∧ entry.2.paddr = e.paddr then
      if entry.2.len = e.length then .live else .assert_fail
    else .dropped
  | none => .dropped

/-- A concrete single-leaf tree whose only entry maps laddr 5 to physical
address 10 with length 4096. -/
def ceTree : LBATree := .leaf ⟨0, L_ADDR_MAX, 1⟩ [(5, ⟨.abs 10, 4096, 1, 0⟩)]

/-- A logical extent at laddr 5, physical address 10, but length 8192 —
key and PBA match the mapping, the length does not. -/
def ceExt : LogicalExtent := ⟨5, .abs 10, 8192⟩

/-- C3 counterexample: at `ceTree`/`ceExt` the mapped length (4096)
differs from the extent's length (8192), so by the claim the extent is
not live and must be dropped (null returned); the code instead hits
`ceph_assert(iter.get_val().len == e->get_length())` and aborts — it does
not drop the extent. -/
theorem claim_C3_counterexample :
    lower_bound ceExt.laddr ceTree = some (5, ⟨.abs 10, 4096, 1, 0⟩) ∧
    ¬ ((4096 : Nat) = 8192) ∧
    init_cached_extent_logical ceTree ceExt ≠ .dropped ∧
    init_cached_extent_logical ceTree ceExt = .assert_fail := by
  refine ⟨?_, by decide, ?_, ?_⟩ <;>
    simp [init_cached_extent_logical, lower_bound, ceTree, ceExt]

/-- C3 (amended): a logical extent is declared live iff `lower_bound`
lands on an entry whose key equals the extent's laddr AND whose mapped
PBA equals the extent's PBA AND whose mapped length equals the extent's
length — but the length equality is enforced by a `ceph_assert` on the
live path, not by the liveness test: when key and PBA match and only the
length differs the call aborts; the extent is dropped (null returned)
exactly when the key or the PBA fails to match (or the iterator is at
end). -/
theorem claim_C3 (t : LBATree) (e : LogicalExtent) :
    (init_cached_extent_logical t e = .live ↔
      ∃ entry, lower_bound e.laddr t = some entry ∧
        entry.1 = e.laddr ∧ entry.2.paddr = e.paddr ∧
        entry.2.len = e.length) ∧
    (init_cached_extent_logical t e = .dropped ↔
      (lower_bound e.laddr t = none ∨
       ∃ entry, lower_bound e.laddr t = some entry ∧
         ¬(entry.1 = e.laddr ∧ entry.2.paddr = e.paddr))) ∧
    (init_cached_extent_logical t e = .assert_fail ↔
      ∃ entry, lower_bound e.laddr t = some entry ∧
        entry.1 = e.laddr ∧ entry.2.paddr = e.paddr ∧
        ¬ entry.2.len = e.length) := by
  unfold init_cached_extent_logical
  cases hlb : lower_bound e.laddr t with
  | none => simp
  | some entry =>
    dsimp only
    by_cases h1 : entry.1 = e.laddr ∧ entry.2.paddr = e.paddr
    · rw [if_pos h1]
      by_cases h2 : entry.2.len = e.length
      · rw [if_pos h2]
        simp only [Option.some.injEq]
        refine ⟨?_, ?_, ?_⟩
        · simp only [true_iff]
          exact ⟨entry, rfl, h1.1, h1.2, h2⟩
        · constructor
          · intro hc; cases hc
          · rintro (hc | ⟨entry', he', hne⟩)
            · cases hc
            · cases he'; exact absurd h1 hne
        · constructor
          · intro hc; cases hc
          · rintro ⟨entry', he', -, -, hne⟩
            cases he'; exact absurd h2 hne
      · rw [if_neg h2]
        refine ⟨?_, ?_, ?_⟩
        · constructor
          · intro hc; cases hc
          · rintro ⟨entry', he', -, -, hlen⟩
            cases he'; exact absurd hlen h2
        · constructor
          · intro hc; cases hc
          · rintro (hc | ⟨entry', he', hne⟩)
            · cases hc
            · cases he'; exact absurd h1 hne
        · simp only [true_iff]
          exact ⟨entry, rfl, h1.1, h1.2, h2⟩
    · rw [if_neg h1]
      refine ⟨?_, ?_, ?_⟩
      · constructor
        · intro hc; cases hc
        · rintro ⟨entry', he', hk, hp, -⟩
          cases he'; exact absurd ⟨hk, hp⟩ h1
      · simp only [true_iff]
        exact Or.inr ⟨entry, rfl, h1⟩
      · constructor
        · intro hc; cases hc
        · rintro ⟨entry', he', hk, hp, -⟩
          cases he'; exact absurd ⟨hk, hp⟩ h1

/-- Mapping value used by the concrete example states. -/
def sampleVal (n : Nat) : lba_map_val_t := ⟨.abs n, 4096, 1, 0⟩

/-- A concrete well-formed depth-2 tree with three mappings. -/
def sampleTree : LBATree := .internal ⟨0, L_ADDR_MAX, 2⟩
  [(0, .leaf ⟨0, 100, 1⟩ [(5, sampleVal 10), (50, sampleVal 11)]),
   (100, .leaf ⟨100, L_ADDR_MAX, 1⟩ [(150, sampleVal 12)])]

theorem sampleTree_wf : wfRootB sampleTree = true := by
  simp [wfRootB, wfB, wfChainB, sampleTree, sampleVal, sortedKeys,
    keysWithin, LBATree.begin_, LBATree.end_, LBATree.depth,
    LBATree.nonempty, L_ADDR_MAX]

theorem claim_C1_witness :
    (50, sampleVal 11) ∈ treeEntries sampleTree ∧ 7 ≤ (50 : Nat) := by
  have h := claim_C1 sampleTree 7 sampleTree_wf
  have hlb : lower_bound 7 sampleTree = some (50, sampleVal 11) := by
    simp [lower_bound, sampleTree, sampleVal, chooseChild3, firstEntryChain,
      firstEntryTree]
  exact ⟨(h.1 _ hlb).1, (h.1 _ hlb).2.1⟩

theorem claim_C2_witness :
    insert 4 sampleTree 5 (sampleVal 99) =
      (sampleTree, some (5, sampleVal 10), false) ∧
    (insert 4 sampleTree 7 (sampleVal 99)).2.1 = some (7, sampleVal 99) ∧
    (insert 4 sampleTree 7 (sampleVal 99)).2.2 = true := by
  have h1 := (claim_C2 4 sampleTree 5 (sampleVal 10) (sampleVal 99)
    sampleTree_wf).1
  have h2 := (claim_C2 4 sampleTree 7 (sampleVal 10) (sampleVal 99)
    sampleTree_wf).2
  refine ⟨h1 ?_, h2 ?_⟩
  · simp [treeEntries, chainEntries, sampleTree]
  · intro w
    simp [treeEntries, chainEntries, sampleTree, sampleVal]

end LBATreeModel

namespace LBABtree

open LBA

/-- In-memory B+tree node with entry type `α` (`lba_map_val_t` for
leaves, `paddr_t` for internal nodes): its physical address, metadata,
ordered entries, and whether it is pending (already cloned into the
current transaction's write set). -/
structure Node (α : Type) where
  paddr : paddr_t
  meta : lba_node_meta_t
  entries : List (Nat × α)
  pending : Bool
  deriving DecidableEq, Repr

instance {α : Type} [Inhabited α] : Inhabited (Node α) :=
  ⟨⟨default, default, [], false⟩⟩

/-- `node_position_t`: a node reference plus the position within it. -/
structure node_position_t (α : Type) where
  node : Node α
  pos : Nat
  deriving DecidableEq, Repr

instance {α : Type} [Inhabited α] : Inhabited (node_position_t α) :=
  ⟨⟨default, 0⟩⟩

/-- `cache.duplicate_for_write`: a pending node is returned unchanged; a
shared node is cloned into a pending, mutable copy. -/
def dupForWrite {α : Type} (n : Node α) : Node α :=
  if n.pending then n else {n with pending := true}

/-- `node->update(iter, val)`: overwrite the value of entry `i`, keeping
its key.  An out-of-range index leaves the entries unchanged. -/
def entryUpdateVal {α : Type} (es : List (Nat × α)) (i : Nat) (v : α) :
    List (Nat × α) :=
  match es[i]? with
  | some (k, _) => es.set i (k, v)
  | none => es

/-- `node->replace(iter, pivot, val)`: overwrite key and value of entry
`i` atomically. -/
def entryReplace {α : Type} (es : List (Nat × α)) (i : Nat) (k : Nat)
    (v : α) : List (Nat × α) :=
  es.set i (k, v)

/-- The iterator: the root-to-leaf path, one position per level.
`internal[0]` is the node at depth 2; the last element of `internal` is
the root. -/
structure iterator where
  internal : List (node_position_t paddr_t)
  leaf : node_position_t lba_map_val_t
  deriving DecidableEq, Repr

namespace iterator

/-- `get_depth() = internal.len() + 1`. -/
def get_depth (it : iterator) : Nat := it.internal.length + 1

/-- `get_internal(depth)`: the position at an internal depth `≥ 2`. -/
def get_internal (it : iterator) (d : Nat) : node_position_t paddr_t :=
  it.internal.getD (d - 2) default

/-- `is_end()` iff the leaf position equals the leaf's size. -/
def is_end (it : iterator) : Bool :=
  it.leaf.pos == it.leaf.node.entries.length

/-- Replace the position stored at internal depth `d`. -/
def setInternal (it : iterator) (d : Nat) (p : node_position_t paddr_t) :
    iterator :=
  {it with internal := it.internal.set (d - 2) p}

end iterator

/-- Modelled from the spec: `at_max_capacity` (header-only node layout) —
the node holds `cap` entries. -/
def at_max_capacity {α : Type} (cap : Nat) (n : Node α) : Bool :=
  n.entries.length == cap

/-- Modelled from the spec: `at_min_capacity` (header-only node layout) —
the node sits at the symmetric minimum-capacity threshold that triggers
merging. -/
def at_min_capacity {α : Type} (minCap : Nat) (n : Node α) : Bool :=
  n.entries.length == minCap

/-- Modelled from the spec: `make_split_children(ctx)` (header-only)
"allocates two new pending nodes holding roughly half the entries each;
`pivot` is the first key of `right`.  Both children's metadata
`begin/end` are set to cover the correct half."  We split at half the
size; the two children are pending at the two fresh addresses. -/
def make_split_children {α : Type} (n : Node α) (pl pr : paddr_t) :
    Node α × Node α × Nat :=
  let mid := n.entries.length / 2
  let les := n.entries.take mid
  let res := n.entries.drop mid
  let pivot := (res.head?.map Prod.fst).getD 0
  (⟨pl, ⟨n.meta.begin_, pivot, n.meta.depth⟩, les, true⟩,
   ⟨pr, ⟨pivot, n.meta.end_, n.meta.depth⟩, res, true⟩, pivot)

/-- Modelled from the spec: `make_full_merge(ctx, other)` (header-only)
"allocates one new pending node containing `self ++ other`". -/
def make_full_merge {α : Type} (fresh : paddr_t) (l r : Node α) : Node α :=
  ⟨fresh, ⟨l.meta.begin_, r.meta.end_, l.meta.depth⟩,
    l.entries ++ r.entries, true⟩

/-- Modelled from the spec: `make_balanced(ctx, other, prefer_left)`
(header-only) "redistributes entries across the pair so both are above
minimum; `prefer_left` breaks ties". -/
def make_balanced {α : Type} (f1 f2 : paddr_t) (l r : Node α)
    (prefer_left : Bool) : Node α × Node α × Nat :=
  let all := l.entries ++ r.entries
  let half := if prefer_left then (all.length + 1) / 2 else all.length / 2
  let les := all.take half
  let res := all.drop half
  let pivot := (res.head?.map Prod.fst).getD 0
  (⟨f1, ⟨l.meta.begin_, pivot, l.meta.depth⟩, les, true⟩,
   ⟨f2, ⟨pivot, r.meta.end_, r.meta.depth⟩, res, true⟩, pivot)

/-- `lba_root_t`: the root handle — root physical address and depth. -/
structure lba_root_t where
  location : paddr_t
  depth : Nat
  deriving DecidableEq, Repr

/-- The tree-object state a mutation touches besides the iterator: the
root handle and the `root_dirty` flag. -/
structure RootState where
  root : lba_root_t
  root_dirty : Bool
  deriving DecidableEq, Repr

/-- The `split_level` lambda of `LBABtree::handle_split`
(`lba_btree.cc:523-553`): split the child into `(left, right, pivot)`,
overwrite the parent entry's value with `left`'s address, insert
`(pivot, right)` immediately after, retire the old child, and adjust the
cursor: if `pos.pos ≤ left.size` point at `left` keeping `pos`, else
point at `right` with `pos -= left.size` and advance the parent position
by one. -/
def split_level {α : Type} (pl pr : paddr_t)
    (parent_pos : node_position_t paddr_t) (pos : node_position_t α) :
    node_position_t paddr_t × node_position_t α :=
  let (left, right, pivot) := make_split_children pos.node pl pr
  let pents := (entryUpdateVal parent_pos.node.entries parent_pos.pos
    left.paddr).insertIdx (parent_pos.pos + 1) (pivot, right.paddr)
  let parent2 := {parent_pos.node with entries := pents}
  if pos.pos ≤ left.entries.length then
    (⟨parent2, parent_pos.pos⟩, ⟨left, pos.pos⟩)
  else
    (⟨parent2, parent_pos.pos + 1⟩, ⟨right, pos.pos - left.entries.length⟩)

/-- Modelled from the spec §4.3: `check_split` (header-only) walks from
the leaf upward while nodes are at capacity; it returns 0 when the leaf
is not at capacity, otherwise 1 plus the number of consecutive
at-capacity internal levels above the leaf (equal to `get_depth()` when
the root itself is at capacity). -/
def fullRun (cap : Nat) : List (node_position_t paddr_t) → Nat
  | [] => 0
  | p :: rest =>
    if p.node.entries.length = cap then 1 + fullRun cap rest else 0

/-- See `fullRun`. -/
def check_split (cap : Nat) (it : iterator) : Nat :=
  if it.leaf.node.entries.length = cap then 1 + fullRun cap it.internal
  else 0

/-- The root-growth step of `LBABtree::handle_split`
(`lba_btree.cc:502-518`): allocate a new internal root with metadata
`{0, L_ADDR_MAX, get_depth()+1}`, give it the single entry
`(L_ADDR_MIN, old root location)`, push it onto the iterator with
position 0, point the root handle at it, set the root depth to the new
`get_depth()`, and mark the root handle dirty. -/
def handle_split_grow_root (fresh : paddr_t) (st : RootState)
    (it : iterator) : RootState × iterator :=
  let meta : lba_node_meta_t := ⟨0, L_ADDR_MAX, it.get_depth + 1⟩
  let nroot : Node paddr_t := ⟨fresh, meta, [(L_ADDR_MIN, st.root.location)],
    true⟩
  let it2 : iterator := {it with internal := it.internal ++ [⟨nroot, 0⟩]}
  (⟨⟨fresh, it2.get_depth⟩, true⟩, it2)

/-- The split cascade of `LBABtree::handle_split`
(`lba_btree.cc:555-572`): from `split_from` down to 1, clone the parent
copy-on-write if shared and run `split_level` on the internal position
(or the leaf at level 1), writing the adjusted positions back into the
iterator; two fresh addresses are consumed per level. -/
def split_loop : List paddr_t → Nat → iterator → iterator
  | _, 0, it => it
  | fs, d + 1, it =>
    let pl := fs.getD 0 default
    let pr := fs.getD 1 default
    let parent0 := it.get_internal (d + 2)
    let parent1 : node_position_t paddr_t :=
      ⟨dupForWrite parent0.node, parent0.pos⟩
    if d + 1 > 1 then
      let pos := it.get_internal (d + 1)
      let (pp, np) := split_level pl pr parent1 pos
      split_loop (fs.drop 2) d ((it.setInternal (d + 2) pp).setInternal
        (d + 1) np)
    else
      let (pp, np) := split_level pl pr parent1 it.leaf
      split_loop (fs.drop 2) d {it.setInternal (d + 2) pp with leaf := np}

/-- `LBABtree::handle_split` (`lba_btree.cc:492-575`): compute
`split_from = check_split()`; if it equals the iterator depth, grow a new
root first; then run the split cascade.  The cascade only rewrites
iterator positions — the root handle is touched by the growth step
alone. -/
def handle_split (cap : Nat) (fs : List paddr_t) (st : RootState)
    (it : iterator) : RootState × iterator :=
  let split_from := check_split cap it
  if split_from = it.get_depth then
    let (st2, it2) := handle_split_grow_root (fs.getD 0 default) st it
    (st2, split_loop (fs.drop 1) split_from it2)
  else
    (st, split_loop fs split_from it)

/-- `merge_level` (`lba_btree.cc:600-684`): clone the parent
copy-on-write if shared; the donor is the left sibling when the current
node is its parent's rightmost child (`(iter.offset + 1) ==
parent.size`), else the right sibling; load the donor through the cache
resolving a possibly relative address against the parent's address.  If
the donor is at minimum capacity, fully merge: `make_full_merge`, update
the left slot's value to the replacement, remove the right slot, retire
both originals, and adjust the cursor (`pos.pos += r.size` and
`parent_pos.pos--` when the donor is the left sibling, else keep);
otherwise rebalance with `make_balanced`, update the left slot and
`replace` the right slot with the new pivot, and pick the cursor side by
comparing the absolute offset against the left replacement's size. -/
def merge_level {α : Type} [Inhabited α] (minCap : Nat)
    (store : paddr_t → Node α) (fresh1 fresh2 : paddr_t)
    (parent_pos : node_position_t paddr_t) (pos : node_position_t α) :
    node_position_t paddr_t × node_position_t α :=
  let pnode := dupForWrite parent_pos.node
  let psize := pnode.entries.length
  let donor_is_left := parent_pos.pos + 1 = psize
  let di := if donor_is_left then parent_pos.pos - 1 else parent_pos.pos + 1
  let dentry := pnode.entries.getD di (0, default)
  let donor := store (dentry.2.maybe_relative_to pnode.paddr)
  let l := if donor_is_left then donor else pos.node
  let r := if donor_is_left then pos.node else donor
  let li := if donor_is_left then di else parent_pos.pos
  let ri := if donor_is_left then parent_pos.pos else di
  if donor.entries.length = minCap then
    let replacement := make_full_merge fresh1 l r
    let pents := (entryUpdateVal pnode.entries li replacement.paddr).eraseIdx
      ri
    (⟨{pnode with entries := pents},
        if donor_is_left then parent_pos.pos - 1 else parent_pos.pos⟩,
     ⟨replacement,
        if donor_is_left then pos.pos + r.entries.length else pos.pos⟩)
  else
    let (rl, rr, pivot) := make_balanced fresh1 fresh2 l r (!donor_is_left)
    let pents := entryReplace (entryUpdateVal pnode.entries li rl.paddr) ri
      pivot rr.paddr
    let ppos1 := if donor_is_left then parent_pos.pos - 1 else parent_pos.pos
    let orig := if donor_is_left then l.entries.length + pos.pos else pos.pos
    if orig < rl.entries.length then
      (⟨{pnode with entries := pents}, ppos1⟩, ⟨rl, orig⟩)
    else
      (⟨{pnode with entries := pents}, ppos1 + 1⟩,
       ⟨rr, orig - rl.entries.length⟩)

/-- The root-collapse step of `LBABtree::handle_merge`
(`lba_btree.cc:722-737`): when the ascent has reached the root
(`to_merge == get_depth()`) and the root holds exactly one entry, retire
it, set the root handle's location to that single child's address
resolved against the old root's address, pop one level from the
iterator, set the root depth to the new `get_depth()`, and mark the root
handle dirty; with more than one entry nothing happens. -/
def collapse_root (st : RootState) (it : iterator) : RootState × iterator :=
  let pos := it.get_internal it.get_depth
  if pos.node.entries.length = 1 then
    let e := pos.node.entries.getD 0 (0, default)
    let it2 : iterator := {it with internal := it.internal.dropLast}
    (⟨⟨e.2.maybe_relative_to pos.node.paddr, it2.get_depth⟩, true⟩, it2)
  else (st, it)

/-- The merge-cascade loop of `LBABtree::handle_merge`
(`lba_btree.cc:701-756`): at each `to_merge` level run `merge_level`
against the parent position (the leaf at level 1), ascend one level,
collapse the root if the ascent reached it with a single entry, continue
while the next node is at minimum capacity.  The fuel is the remaining
number of levels. -/
def merge_loop (minCap : Nat) (storeI : paddr_t → Node paddr_t)
    (storeL : paddr_t → Node lba_map_val_t) :
    List paddr_t → RootState → iterator → Nat → Nat → RootState × iterator
  | _, st, it, _, 0 => (st, it)
  | fs, st, it, to_merge, fuel + 1 =>
    let parent0 := it.get_internal (to_merge + 1)
    let it2 : iterator :=
      if to_merge > 1 then
        let pos := it.get_internal to_merge
        let (pp, np) := merge_level minCap storeI (fs.getD 0 default)
          (fs.getD 1 default) parent0 pos
        (it.setInternal (to_merge + 1) pp).setInternal to_merge np
      else
        let (pp, np) := merge_level minCap storeL (fs.getD 0 default)
          (fs.getD 1 default) parent0 it.leaf
        {it.setInternal (to_merge + 1) pp with leaf := np}
    let tm := to_merge + 1
    let pos := it2.get_internal tm
    if tm = it2.get_depth then
      if pos.node.entries.length = 1 then collapse_root st it2 else (st, it2)
    else if pos.node.entries.length = minCap then
      merge_loop minCap storeI storeL (fs.drop 2) st it2 tm fuel
    else (st, it2)

/-- `LBABtree::handle_merge` (`lba_btree.cc:686-757`): if the leaf is not
at minimum capacity or the tree has depth 1, return immediately without
structural change; otherwise run the merge cascade from depth 1. -/
def handle_merge (minCap : Nat) (storeI : paddr_t → Node paddr_t)
    (storeL : paddr_t → Node lba_map_val_t) (fs : List paddr_t)
    (st : RootState) (it : iterator) : RootState × iterator :=
  if !at_min_capacity minCap it.leaf.node || it.get_depth = 1 then (st, it)
  else merge_loop minCap storeI storeL fs st it 1 it.get_depth

/-- `LBABtree::remove` (`lba_btree.cc:231-257`): `assert(!iter.is_end())`
(`none` models the assertion failure); then clone the leaf copy-on-write
if shared, remove exactly the entry the iterator points at, and run
`handle_merge` upward from depth 1. -/
def remove (minCap : Nat) (storeI : paddr_t → Node paddr_t)
    (storeL : paddr_t → Node lba_map_val_t) (fs : List paddr_t)
    (st : RootState) (it : iterator) : Option (RootState × iterator) :=
  if it.is_end then none
  else
    let lnode := dupForWrite it.leaf.node
    let lnode2 := {lnode with entries := lnode.entries.eraseIdx it.leaf.pos}
    let it2 : iterator := {it with leaf := ⟨lnode2, it.leaf.pos⟩}
    some (handle_merge minCap storeI storeL fs st it2)

/-- The leftmost re-descent used by `iterator::next`
(`lookup_depth_range` with the `begin()` choosers, `lba_btree.cc:50-59`).
Modelled from the spec §4.3: re-descend to the leftmost leaf below the
advanced level, reading each child through the cache with its address
resolved against the parent.  The first argument is the number of levels
strictly below the given position. -/
def descend_first (storeI : paddr_t → Node paddr_t)
    (storeL : paddr_t → Node lba_map_val_t) :
    Nat → node_position_t paddr_t →
    List (node_position_t paddr_t) × node_position_t lba_map_val_t
  | 0, _ => ([], ⟨storeL default, 0⟩)
  | 1, p =>
    let e := p.node.entries.getD p.pos (0, default)
    ([], ⟨storeL (e.2.maybe_relative_to p.node.paddr), 0⟩)
  | d + 2, p =>
    let e := p.node.entries.getD p.pos (0, default)
    let child : node_position_t paddr_t :=
      ⟨storeI (e.2.maybe_relative_to p.node.paddr), 0⟩
    let (rest, lf) := descend_first storeI storeL (d + 1) child
    (rest ++ [child], lf)

/-- `LBABtree::iterator::next` (`lba_btree.cc:24-72`):
`assert(!is_end())` (`none` models the assertion failure); if the next
position is still inside the leaf, advance in place; otherwise find the
lowest internal level with space (`(pos + 1) < size`), advance there and
re-descend to the leftmost leaf below (resetting the levels in between);
if no level has space, set the leaf position to the leaf's size (the end
iterator). -/
def next (storeI : paddr_t → Node paddr_t)
    (storeL : paddr_t → Node lba_map_val_t) (it : iterator) :
    Option iterator :=
  if it.is_end then none
  else if it.leaf.pos + 1 < it.leaf.node.entries.length then
    some {it with leaf := ⟨it.leaf.node, it.leaf.pos + 1⟩}
  else
    match it.internal.findIdx? fun p => p.pos + 1 < p.node.entries.length
      with
    | some i =>
      let p0 := it.internal.getD i default
      let adv : node_position_t paddr_t := ⟨p0.node, p0.pos + 1⟩
      let (below, lf) := descend_first storeI storeL (i + 1) adv
      some ⟨below ++ adv :: it.internal.drop (i + 1), lf⟩
    | none =>
      some {it with leaf := ⟨it.leaf.node, it.leaf.node.entries.length⟩}

/-- Result of `update_internal_mapping`: either the root handle was
re-pointed, or the (copy-on-write cloned) parent node had the child
entry's value updated. -/
inductive UpdateMappingResult where
  | root_updated (st : RootState)
  | parent_updated (mparent : Node paddr_t)
  deriving DecidableEq, Repr

/-- `LBABtree::update_internal_mapping` (`lba_btree.cc:759-862`), given
the iterator produced by its internal `lower_bound(laddr)` descent.  In
the root case (`depth == iter.get_depth()`): `ceph_assert(laddr == 0)`
and `ceph_assert(root.get_location() == old_addr)` (`none` models the
aborts), then point the root handle at `new_addr` and mark it dirty.
Otherwise locate the parent at `depth + 1`; `assert(parent.pos <
parent.node.size)`, `ceph_assert` that the entry at `parent.pos` has key
`laddr` and value `old_addr`, then clone the parent copy-on-write and
update that entry's value to `new_addr`. -/
def update_internal_mapping (st : RootState) (it : iterator)
    (depth laddr : Nat) (old_addr new_addr : paddr_t) :
    Option UpdateMappingResult :=
  if depth = it.get_depth then
    if laddr ≠ 0 then none
    else if st.root.location ≠ old_addr then none
    else some (.root_updated ⟨⟨new_addr, st.root.depth⟩, true⟩)
  else
    let parent := it.get_internal (depth + 1)
    match parent.node.entries[parent.pos]? with
    | none => none
    | some (pk, pv) =>
      if pk ≠ laddr then none
      else if pv ≠ old_addr then none
      else
        let mparent := dupForWrite parent.node
        some (.parent_updated
          {mparent with
            entries := entryUpdateVal mparent.entries parent.pos new_addr})

theorem dupForWrite_entries {α : Type} (n : Node α) :
    (dupForWrite n).entries = n.entries := by
  unfold dupForWrite; split <;> rfl

theorem dupForWrite_paddr {α : Type} (n : Node α) :
    (dupForWrite n).paddr = n.paddr := by
  unfold dupForWrite; split <;> rfl

theorem dupForWrite_pending {α : Type} (n : Node α) :
    (dupForWrite n).pending = true := by
  unfold dupForWrite
  split
  · assumption
  · rfl

/-- C5: after each level of a split cascade splits a node into
`(left, right)` with pivot equal to `right`'s first key, the iterator is
adjusted as follows: if the cursor's child-local `pos` is `≤ left.size`,
the cursor points at `left` keeping `pos` unchanged (and the parent
position is unchanged); otherwise it points at `right` with `pos`
decreased by `left.size` and the parent's position advanced by one. -/
theorem claim_C5 {α : Type} (pl pr : paddr_t)
    (parent_pos : node_position_t paddr_t) (pos : node_position_t α)
    (hne : pos.node.entries ≠ []) :
    (∃ v rest, (make_split_children pos.node pl pr).2.1.entries =
        ((make_split_children pos.node pl pr).2.2, v) :: rest) ∧
    (pos.pos ≤ (make_split_children pos.node pl pr).1.entries.length →
      (split_level pl pr parent_pos pos).2.node =
        (make_split_children pos.node pl pr).1 ∧
      (split_level pl pr parent_pos pos).2.pos = pos.pos ∧
      (split_level pl pr parent_pos pos).1.pos = parent_pos.pos) ∧
    ((make_split_children pos.node pl pr).1.entries.length < pos.pos →
      (split_level pl pr parent_pos pos).2.node =
        (make_split_children pos.node pl pr).2.1 ∧
      (split_level pl pr parent_pos pos).2.pos =
        pos.pos - (make_split_children pos.node pl pr).1.entries.length ∧
      (split_level pl pr parent_pos pos).1.pos = parent_pos.pos + 1) := by
  have hdrop : pos.node.entries.drop (pos.node.entries.length / 2) ≠ [] := by
    have hlen : 0 < pos.node.entries.length :=
      List.length_pos.mpr hne
    simp only [ne_eq, List.drop_eq_nil_iff, not_le]
    omega
  obtain ⟨⟨hk, hv⟩, rest, hcons⟩ :=
    List.exists_cons_of_ne_nil hdrop
  refine ⟨?_, ?_, ?_⟩
  · refine ⟨hv, rest, ?_⟩
    simp only [make_split_children, hcons]
    simp
  · intro hle
    simp only [make_split_children] at hle ⊢
    simp only [split_level, make_split_children]
    rw [if_pos hle]
    exact ⟨rfl, rfl, rfl⟩
  · intro hlt
    simp only [make_split_children] at hlt ⊢
    simp only [split_level, make_split_children]
    rw [if_neg (by omega)]
    exact ⟨rfl, rfl, rfl⟩

/-- A concrete leaf node holding four mappings, used by witnesses. -/
def wLeaf : Node lba_map_val_t :=
  ⟨.abs 40, ⟨0, 100, 1⟩,
    [(1, ⟨.abs 1, 1, 1, 0⟩), (2, ⟨.abs 2, 1, 1, 0⟩),
     (3, ⟨.abs 3, 1, 1, 0⟩), (4, ⟨.abs 4, 1, 1, 0⟩)], false⟩

/-- A concrete internal parent node with two children, used by
witnesses. -/
def wParent : Node paddr_t :=
  ⟨.abs 50, ⟨0, L_ADDR_MAX, 2⟩, [(0, .abs 40), (100, .abs 41)], false⟩

theorem claim_C5_witness :
    (split_level (α := lba_map_val_t) (.abs 60) (.abs 61) ⟨wParent, 0⟩
        ⟨wLeaf, 1⟩).2.node =
      (make_split_children wLeaf (.abs 60) (.abs 61)).1 ∧
    (split_level (α := lba_map_val_t) (.abs 60) (.abs 61) ⟨wParent, 0⟩
        ⟨wLeaf, 1⟩).2.pos = 1 ∧
    (split_level (α := lba_map_val_t) (.abs 60) (.abs 61) ⟨wParent, 0⟩
        ⟨wLeaf, 1⟩).1.pos = 0 := by
  have h := claim_C5 (α := lba_map_val_t) (.abs 60) (.abs 61) ⟨wParent, 0⟩
    ⟨wLeaf, 1⟩ (by simp [wLeaf])
  have h2 := h.2.1 (by simp [make_split_children, wLeaf])
  exact ⟨h2.1, h2.2.1, h2.2.2⟩

/-- The donor node `merge_level` loads: the entry next to
`parent_pos.pos` (left neighbour when the current node is the rightmost
child, right neighbour otherwise) of the cloned parent, its address
resolved against the parent's address. -/
def merge_donor {α : Type} [Inhabited α] (store : paddr_t → Node α)
    (parent_pos : node_position_t paddr_t) (donor_is_left : Bool) :
    Node α :=
  let pnode := dupForWrite parent_pos.node
  let di := if donor_is_left then parent_pos.pos - 1 else parent_pos.pos + 1
  store ((pnode.entries.getD di (0, default)).2.maybe_relative_to
    pnode.paddr)

/-- C4: in a merge cascade step where the two siblings are both at
minimum capacity and are fully merged: when the donor is the left
sibling (the current node is its parent's rightmost child), the cursor
into the current node is shifted up by the left sibling's original size
and the parent position is decremented; when the donor is the right
sibling the cursor position is kept as-is.  In both cases the cursor
node becomes the full merge of the two siblings. -/
theorem claim_C4 {α : Type} [Inhabited α] (minCap : Nat)
    (store : paddr_t → Node α) (f1 f2 : paddr_t)
    (parent_pos : node_position_t paddr_t) (pos : node_position_t α)
    (hcur : at_min_capacity minCap pos.node = true) :
    (parent_pos.pos + 1 = (dupForWrite parent_pos.node).entries.length →
      at_min_capacity minCap (merge_donor store parent_pos true) = true →
      (merge_level minCap store f1 f2 parent_pos pos).2.pos =
        (merge_donor store parent_pos true).entries.length + pos.pos ∧
      (merge_level minCap store f1 f2 parent_pos pos).1.pos =
        parent_pos.pos - 1 ∧
      (merge_level minCap store f1 f2 parent_pos pos).2.node =
        make_full_merge f1 (merge_donor store parent_pos true) pos.node) ∧
    (parent_pos.pos + 1 ≠ (dupForWrite parent_pos.node).entries.length →
      at_min_capacity minCap (merge_donor store parent_pos false) = true →
      (merge_level minCap store f1 f2 parent_pos pos).2.pos = pos.pos ∧
      (merge_level minCap store f1 f2 parent_pos pos).1.pos =
        parent_pos.pos ∧
      (merge_level minCap store f1 f2 parent_pos pos).2.node =
        make_full_merge f1 pos.node (merge_donor store parent_pos false)) := by
  have hps : pos.node.entries.length = minCap := by
    simpa [at_min_capacity] using hcur
  constructor
  · intro hleft hdonor
    have hds : (merge_donor store parent_pos true).entries.length = minCap :=
      by simpa [at_min_capacity] using hdonor
    simp only [merge_donor, if_true, ite_true] at hds ⊢
    simp only [merge_level]
    rw [if_pos hleft, if_pos hleft, if_pos hleft, if_pos hleft,
      if_pos hleft, if_pos hleft]
    rw [if_pos hds]
    refine ⟨?_, rfl, rfl⟩
    simp only [node_position_t.pos]
    omega
  · intro hright hdonor
    have hds : (merge_donor store parent_pos false).entries.length = minCap
      := by simpa [at_min_capacity] using hdonor
    simp only [merge_donor, Bool.false_eq_true, if_false, ite_false] at hds ⊢
    simp only [merge_level]
    rw [if_neg hright, if_neg hright, if_neg hright, if_neg hright,
      if_neg hright, if_neg hright]
    rw [if_pos hds]
    refine ⟨?_, rfl, rfl⟩
    simp only [node_position_t.pos]
    rw [if_neg hright]

/-- Concrete left sibling leaf at minimum capacity 2. -/
def wLeafL : Node lba_map_val_t :=
  ⟨.abs 40, ⟨0, 100, 1⟩,
    [(1, ⟨.abs 1, 1, 1, 0⟩), (2, ⟨.abs 2, 1, 1, 0⟩)], false⟩

/-- Concrete right sibling leaf (the current node) at minimum
capacity 2. -/
def wLeafR : Node lba_map_val_t :=
  ⟨.abs 41, ⟨100, L_ADDR_MAX, 1⟩,
    [(100, ⟨.abs 5, 1, 1, 0⟩), (200, ⟨.abs 6, 1, 1, 0⟩)], false⟩

/-- A store with every address resolving to the left sibling leaf. -/
def wStoreL : paddr_t → Node lba_map_val_t := fun _ => wLeafL

theorem claim_C4_witness :
    (merge_level 2 wStoreL (.abs 60) (.abs 61) ⟨wParent, 1⟩
        ⟨wLeafR, 0⟩).2.pos = 2 ∧
    (merge_level 2 wStoreL (.abs 60) (.abs 61) ⟨wParent, 1⟩
        ⟨wLeafR, 0⟩).1.pos = 0 := by
  have h := (claim_C4 2 wStoreL (.abs 60) (.abs 61) ⟨wParent, 1⟩ ⟨wLeafR, 0⟩
    (by simp [at_min_capacity, wLeafR])).1
    (by simp [dupForWrite, wParent])
    (by simp [merge_donor, dupForWrite, wParent, wStoreL, at_min_capacity,
      wLeafL, paddr_t.maybe_relative_to])
  refine ⟨?_, ?_⟩
  · rw [h.1]
    simp [merge_donor, dupForWrite, wParent, wStoreL, wLeafL,
      paddr_t.maybe_relative_to]
  · exact h.2.1

/-- C6: when `handle_split` finds the root itself at capacity
(`split_from = check_split()` equals the iterator's depth), the
root-growth step creates a new root node of depth `old_depth + 1`
containing exactly one entry with pivot `L_ADDR_MIN` and the old root's
location as value, pushes it onto the iterator, sets the root handle's
location to the new root's address, increments the root handle's depth,
and sets the root-dirty flag; the subsequent split cascade leaves the
root handle as the growth step set it. -/
theorem claim_C6 (cap : Nat) (fresh : paddr_t) (fs : List paddr_t)
    (st : RootState) (it : iterator)
    (hsplit : check_split cap it = it.get_depth)
    (hdepth : st.root.depth = it.get_depth) :
    (handle_split_grow_root fresh st it).2.internal =
      it.internal ++ [⟨⟨fresh, ⟨0, L_ADDR_MAX, it.get_depth + 1⟩,
        [(L_ADDR_MIN, st.root.location)], true⟩, 0⟩] ∧
    (handle_split_grow_root fresh st it).1.root.location = fresh ∧
    (handle_split_grow_root fresh st it).1.root.depth = st.root.depth + 1 ∧
    (handle_split_grow_root fresh st it).1.root_dirty = true ∧
    (handle_split cap (fresh :: fs) st it).1 =
      (handle_split_grow_root fresh st it).1 := by
  refine ⟨rfl, rfl, ?_, rfl, ?_⟩
  · simp only [handle_split_grow_root, iterator.get_depth,
      List.length_append, List.length_cons, List.length_nil]
    rw [hdepth]
    simp [iterator.get_depth]
  · simp only [handle_split]
    rw [if_pos hsplit]
    simp

theorem claim_C6_witness :
    (handle_split_grow_root (.abs 70) ⟨⟨.abs 40, 1⟩, false⟩
        ⟨[], ⟨wLeaf, 2⟩⟩).1.root.location = .abs 70 ∧
    (handle_split_grow_root (.abs 70) ⟨⟨.abs 40, 1⟩, false⟩
        ⟨[], ⟨wLeaf, 2⟩⟩).1.root.depth = 2 ∧
    (handle_split_grow_root (.abs 70) ⟨⟨.abs 40, 1⟩, false⟩
        ⟨[], ⟨wLeaf, 2⟩⟩).1.root_dirty = true := by
  have h := claim_C6 4 (.abs 70) [] ⟨⟨.abs 40, 1⟩, false⟩ ⟨[], ⟨wLeaf, 2⟩⟩
    (by simp [check_split, wLeaf, iterator.get_depth, fullRun])
    (by simp [iterator.get_depth])
  exact ⟨h.2.1, h.2.2.1, h.2.2.2.1⟩

/-- C7: when the merge cascade has ascended to the root and the root
holds exactly one entry, the root is retired and the root handle's
location is set to that single child's address with any relative
encoding resolved against the old root's address, one level is popped
from the iterator, the root handle's depth is decremented by one, and
the root-dirty flag is set; when the root holds more than one entry no
collapse occurs. -/
theorem claim_C7 (st : RootState) (it : iterator)
    (hne : it.internal ≠ []) (hdepth : st.root.depth = it.get_depth) :
    (∀ p v, (it.get_internal it.get_depth).node.entries = [(p, v)] →
      (collapse_root st it).1.root.location =
        v.maybe_relative_to (it.get_internal it.get_depth).node.paddr ∧
      (collapse_root st it).2.internal = it.internal.dropLast ∧
      (collapse_root st it).1.root.depth = st.root.depth - 1 ∧
      (collapse_root st it).1.root_dirty = true) ∧
    ((it.get_internal it.get_depth).node.entries.length ≠ 1 →
      collapse_root st it = (st, it)) := by
  constructor
  · intro p v hent
    simp only [collapse_root, hent]
    simp only [List.length_cons, List.length_nil, eq_self_iff_true, if_true,
      List.getD_cons_zero]
    refine ⟨trivial, trivial, ?_, trivial⟩
    simp only [iterator.get_depth, List.length_dropLast]
    rw [hdepth]
    simp only [iterator.get_depth]
    have : 0 < it.internal.length := List.length_pos.mpr hne
    omega
  · intro hlen
    simp only [collapse_root]
    rw [if_neg hlen]

/-- Concrete one-entry root node at address 80 whose single child address
is stored relative (offset 4). -/
def wRoot1 : Node paddr_t :=
  ⟨.abs 80, ⟨0, L_ADDR_MAX, 2⟩, [(0, .rel 4)], false⟩

theorem claim_C7_witness :
    (collapse_root ⟨⟨.abs 80, 2⟩, false⟩
        ⟨[⟨wRoot1, 0⟩], ⟨wLeafL, 0⟩⟩).1.root.location = .abs 84 ∧
    (collapse_root ⟨⟨.abs 80, 2⟩, false⟩
        ⟨[⟨wRoot1, 0⟩], ⟨wLeafL, 0⟩⟩).2.internal = [] ∧
    (collapse_root ⟨⟨.abs 80, 2⟩, false⟩
        ⟨[⟨wRoot1, 0⟩], ⟨wLeafL, 0⟩⟩).1.root.depth = 1 ∧
    (collapse_root ⟨⟨.abs 80, 2⟩, false⟩
        ⟨[⟨wRoot1, 0⟩], ⟨wLeafL, 0⟩⟩).1.root_dirty = true := by
  have h := (claim_C7 ⟨⟨.abs 80, 2⟩, false⟩ ⟨[⟨wRoot1, 0⟩], ⟨wLeafL, 0⟩⟩
    (by simp) (by simp [iterator.get_depth])).1 0 (.rel 4)
    (by simp [iterator.get_internal, iterator.get_depth, wRoot1])
  refine ⟨?_, ?_, ?_, h.2.2.2⟩
  · rw [h.1]
    simp [iterator.get_internal, iterator.get_depth, wRoot1,
      paddr_t.maybe_relative_to]
  · rw [h.2.1]
    simp
  · rw [h.2.2.1]
    decide

/-- C8: `update_internal_mapping(ctx, depth, laddr, old_addr, new_addr)`
aborts if and only if its preconditions fail.  Root case (`depth` equals
the iterator's depth): it aborts unless `laddr = 0` and the root
handle's location equals `old_addr`, and otherwise sets the location to
`new_addr` (keeping the depth) and marks the handle dirty.  Non-root
case: it aborts unless the parent entry at the iterator's position at
`depth + 1` has key `laddr` and value `old_addr`, and otherwise clones
the parent copy-on-write and updates that entry's value to
`new_addr`. -/
theorem claim_C8 (st : RootState) (it : iterator) (depth laddr : Nat)
    (old_addr new_addr : paddr_t) :
    (depth = it.get_depth →
      (update_internal_mapping st it depth laddr old_addr new_addr = none ↔
        ¬(laddr = 0 ∧ st.root.location = old_addr)) ∧
      (laddr = 0 → st.root.location = old_addr →
        update_internal_mapping st it depth laddr old_addr new_addr =
          some (.root_updated ⟨⟨new_addr, st.root.depth⟩, true⟩))) ∧
    (depth ≠ it.get_depth →
      ∀ pk pv,
        (it.get_internal (depth + 1)).node.entries[
          (it.get_internal (depth + 1)).pos]? = some (pk, pv) →
        (update_internal_mapping st it depth laddr old_addr new_addr = none
          ↔ ¬(pk = laddr ∧ pv = old_addr)) ∧
        (pk = laddr → pv = old_addr →
          ∃ mp, update_internal_mapping st it depth laddr old_addr new_addr
              = some (.parent_updated mp) ∧
            mp.entries[(it.get_internal (depth + 1)).pos]? =
              some (laddr, new_addr) ∧
            mp.pending = true)) := by
  constructor
  · intro hd
    unfold update_internal_mapping
    rw [if_pos hd]
    constructor
    · by_cases h0 : laddr = 0
      · rw [if_neg (by omega)]
        by_cases hloc : st.root.location = old_addr
        · rw [if_neg (by simp [hloc])]
          simp [h0, hloc]
        · rw [if_pos hloc]
          simp [h0, hloc]
      · rw [if_pos h0]
        simp [h0]
    · intro h0 hloc
      rw [if_neg (by omega), if_neg (by simp [hloc])]
  · intro hd pk pv hent
    unfold update_internal_mapping
    rw [if_neg hd]
    dsimp only
    rw [hent]
    dsimp only
    constructor
    · by_cases hk : pk = laddr
      · rw [if_neg (by simp [hk])]
        by_cases hv : pv = old_addr
        · rw [if_neg (by simp [hv])]
          simp [hk, hv]
        · rw [if_pos hv]
          simp [hk, hv]
      · rw [if_pos hk]
        simp [hk]
    · intro hk hv
      rw [if_neg (by simp [hk]), if_neg (by simp [hv])]
      refine ⟨_, rfl, ?_, ?_⟩
      · have hlt : (it.get_internal (depth + 1)).pos <
            (it.get_internal (depth + 1)).node.entries.length :=
          (List.getElem?_eq_some.mp hent).1
        simp only [entryUpdateVal, dupForWrite_entries, hent]
        rw [List.getElem?_set]
        simp [hlt, hk]
      · exact dupForWrite_pending _

theorem claim_C8_witness :
    update_internal_mapping ⟨⟨.abs 80, 2⟩, false⟩
      ⟨[⟨wRoot1, 0⟩], ⟨wLeafL, 0⟩⟩ 2 0 (.abs 80) (.abs 90) =
      some (.root_updated ⟨⟨.abs 90, 2⟩, true⟩) ∧
    update_internal_mapping ⟨⟨.abs 80, 2⟩, false⟩
      ⟨[⟨wRoot1, 0⟩], ⟨wLeafL, 0⟩⟩ 2 5 (.abs 80) (.abs 90) = none := by
  have h := claim_C8 ⟨⟨.abs 80, 2⟩, false⟩ ⟨[⟨wRoot1, 0⟩], ⟨wLeafL, 0⟩⟩
    2 0 (.abs 80) (.abs 90)
  have h2 := claim_C8 ⟨⟨.abs 80, 2⟩, false⟩ ⟨[⟨wRoot1, 0⟩], ⟨wLeafL, 0⟩⟩
    2 5 (.abs 80) (.abs 90)
  constructor
  · exact (h.1 (by simp [iterator.get_depth])).2 rfl rfl
  · exact ((h2.1 (by simp [iterator.get_depth])).1).mpr (by simp)

/-- C9: the cursor-consuming operations `remove` and `iterator::next`
both assert `!is_end()` on entry, so applying either to the end iterator
is a precondition violation (`none`), not a no-op; under the
precondition that the iterator points at an entry, `remove` deletes
exactly that entry (the leaf keeps the entries before and after `pos`)
and then runs the merge cascade. -/
theorem claim_C9 (minCap : Nat) (storeI : paddr_t → Node paddr_t)
    (storeL : paddr_t → Node lba_map_val_t) (fs : List paddr_t)
    (st : RootState) (it : iterator) :
    (it.is_end = true →
      next storeI storeL it = none ∧
      remove minCap storeI storeL fs st it = none) ∧
    (it.is_end = false →
      remove minCap storeI storeL fs st it =
        some (handle_merge minCap storeI storeL fs st
          {it with leaf := ⟨{dupForWrite it.leaf.node with
            entries := it.leaf.node.entries.eraseIdx it.leaf.pos},
            it.leaf.pos⟩}) ∧
      it.leaf.node.entries.eraseIdx it.leaf.pos =
        it.leaf.node.entries.take it.leaf.pos ++
          it.leaf.node.entries.drop (it.leaf.pos + 1)) := by
  constructor
  · intro hend
    constructor
    · unfold next
      rw [if_pos hend]
    · unfold remove
      rw [if_pos hend]
  · intro hend
    constructor
    · unfold remove
      rw [if_neg (by simp [hend])]
      simp [dupForWrite_entries]
    · exact List.eraseIdx_eq_take_drop_succ _ _

/-- A store with every address resolving to the one-entry root node. -/
def wStoreI : paddr_t → Node paddr_t := fun _ => wRoot1

theorem claim_C9_witness :
    next wStoreI wStoreL ⟨[], ⟨wLeafL, 2⟩⟩ = none ∧
    remove 1 wStoreI wStoreL [] ⟨⟨.abs 40, 1⟩, false⟩
      ⟨[], ⟨wLeafL, 2⟩⟩ = none := by
  exact (claim_C9 1 wStoreI wStoreL [] ⟨⟨.abs 40, 1⟩, false⟩
    ⟨[], ⟨wLeafL, 2⟩⟩).1 (by simp [iterator.is_end, wLeafL])

/-- C10: for every remove performed on a tree of depth 1 (the root is a
leaf), `handle_merge` returns immediately without any structural change,
so `remove` only deletes the leaf entry: the root leaf is never merged,
rebalanced or collapsed, and — since no size hypothesis is needed — it
is permitted to fall below minimum capacity, down to zero entries. -/
theorem claim_C10 (minCap : Nat) (storeI : paddr_t → Node paddr_t)
    (storeL : paddr_t → Node lba_map_val_t) (fs : List paddr_t)
    (st : RootState) (it : iterator)
    (hdepth : it.get_depth = 1) (hend : it.is_end = false) :
    handle_merge minCap storeI storeL fs st it = (st, it) ∧
    remove minCap storeI storeL fs st it =
      some (st, {it with leaf := ⟨{dupForWrite it.leaf.node with
        entries := it.leaf.node.entries.eraseIdx it.leaf.pos},
        it.leaf.pos⟩}) := by
  have hint : it.internal = [] := by
    simp only [iterator.get_depth] at hdepth
    exact List.length_eq_zero.mp (by omega)
  have hm : ∀ it2 : iterator, it2.internal = it.internal →
      handle_merge minCap storeI storeL fs st it2 = (st, it2) := by
    intro it2 h2
    have hd2 : it2.get_depth = 1 := by
      simp [iterator.get_depth, h2, hint]
    unfold handle_merge
    rw [if_pos (by simp [hd2])]
  constructor
  · exact hm it rfl
  · unfold remove
    rw [if_neg (by simp [hend])]
    dsimp only
    rw [show (dupForWrite it.leaf.node).entries = it.leaf.node.entries from
      dupForWrite_entries _]
    exact congrArg some (hm _ rfl)

/-- A root-leaf iterator holding a single entry; removing through it
empties the leaf entirely. -/
def wLeaf1 : Node lba_map_val_t :=
  ⟨.abs 40, ⟨0, L_ADDR_MAX, 1⟩, [(3, ⟨.abs 9, 1, 1, 0⟩)], false⟩

theorem claim_C10_witness :
    remove 1 wStoreI wStoreL [] ⟨⟨.abs 40, 1⟩, false⟩ ⟨[], ⟨wLeaf1, 0⟩⟩ =
      some (⟨⟨.abs 40, 1⟩, false⟩,
        ⟨[], ⟨⟨.abs 40, ⟨0, L_ADDR_MAX, 1⟩, [], true⟩, 0⟩⟩) := by
  have h := (claim_C10 1 wStoreI wStoreL [] ⟨⟨.abs 40, 1⟩, false⟩
    ⟨[], ⟨wLeaf1, 0⟩⟩ (by simp [iterator.get_depth])
    (by simp [iterator.is_end, wLeaf1])).2
  rw [h]
  simp [dupForWrite, wLeaf1]
